import Mathlib

/-!
Verification of `repo_scorecard.py` against its design specification.

The program is a single-file Python CLI that scores a local repository with ten
weighted filesystem checks.  We embed the program shallowly:

* The filesystem is modelled as a flat list of nodes (files and directories),
  each carrying its path relative to the repository root, a kind, a readability
  flag (read/list permission) and, for files, its textual content.  The root
  directory's absolute path is kept as a list of components because the code
  inspects absolute path parts (`walk_repo`'s ignore filter and the second loop
  of `check_tests` both look at `p.parts` of absolute paths).
* Python strings/bytes are modelled as Lean `String`/`List Char`; byte caps
  such as `[:4096]` become `List.take` on the character list.  Path rendering
  uses POSIX separators.
* `Path.rglob` in CPython's `pathlib` swallows `PermissionError` while scanning
  a directory and simply skips it (bpo-24120), so `walk_repo` is embedded as a
  traversal that prunes unreadable directories; the surrounding
  `except PermissionError` in the source never fires for unreadable
  subdirectories.  `Path.iterdir`, by contrast, raises `PermissionError` when
  the listed directory is unreadable, so the checks that call `iterdir`
  directly (`check_readme`, `check_license`, `check_ci`) are embedded in
  `Except Unit`, with `Except.error ()` standing for an uncaught
  `PermissionError`.
* `re.search` uses of the two release-hygiene patterns are embedded as
  executable matchers on character lists, faithful to the patterns
  `"(?:version|Version)"\s*:\s*["\']?[\d.]+\d["\']?` and
  `<Version>[\d.]+</Version>` (both with `re.I`); `\s` is modelled by the ASCII
  whitespace class.
-/

deriving instance DecidableEq for Except

namespace RepoScorecard

/-- Lowercase every character (model of Python `str.lower`). -/
def toLowerL (cs : List Char) : List Char := cs.map Char.toLower

/-- Uppercase every character (model of Python `str.upper`). -/
def toUpperL (cs : List Char) : List Char := cs.map Char.toUpper

/-- Does `cs` start with `pat`? (model of `str.startswith`). -/
def startsL : List Char → List Char → Bool
  | [], _ => true
  | _ :: _, [] => false
  | p :: ps, c :: cs => p == c && startsL ps cs

/-- Does `cs` contain `pat` as a contiguous substring? (model of Python `in`). -/
def containsL (pat : List Char) : List Char → Bool
  | [] => startsL pat []
  | c :: cs => startsL pat (c :: cs) || containsL pat cs

/-- Case-insensitive `startsL`; `pat` is given already lowercased. -/
def ciStarts : List Char → List Char → Bool
  | [], _ => true
  | _ :: _, [] => false
  | p :: ps, c :: cs => p == c.toLower && ciStarts ps cs

/-- Path components, root-relative unless stated otherwise. -/
abbrev PathParts := List String

/-- POSIX rendering of a relative path (model of `str(p.relative_to(root))`). -/
def renderPath : PathParts → String
  | [] => ""
  | [c] => c
  | c :: cs => c ++ "/" ++ renderPath cs

/-- Final path component (model of `Path.name`). -/
def lastName (p : PathParts) : String := p.getLastD ""

/-- Index of the last `'.'` in a character list (model of `str.rfind('.')`). -/
def lastDotIdx : List Char → Option Nat
  | [] => none
  | c :: cs =>
    match lastDotIdx cs with
    | some i => some (i + 1)
    | none => if c == '.' then some 0 else none

/-- Model of `pathlib.PurePath.suffix` on a file name: the substring from the
last dot onward, provided that dot is neither the first nor the last
character; otherwise empty. -/
def suffixL (cs : List Char) : List Char :=
  match lastDotIdx cs with
  | some i => if 0 < i && i + 1 < cs.length then cs.drop i else []
  | none => []

/-- Model of `pathlib.PurePath.stem` on a file name: the name with its suffix
removed. -/
def stemL (cs : List Char) : List Char :=
  match lastDotIdx cs with
  | some i => if 0 < i && i + 1 < cs.length then cs.take i else cs
  | none => cs

/-- Kind of a filesystem node. -/
inductive NodeKind where
  | file
  | dir
deriving DecidableEq, Repr

/-- One filesystem node below the repository root: its root-relative path, its
kind, whether the process may read it (for a directory: list it), and — for a
file — its content. -/
structure Node where
  parts : PathParts
  kind : NodeKind
  readable : Bool
  content : String
deriving DecidableEq, Repr

/-- The repository root: the absolute path of the root directory as components,
whether the root directory itself is listable, and all nodes below it. -/
structure FS where
  rootParts : PathParts
  rootReadable : Bool
  nodes : List Node
deriving DecidableEq, Repr

/-- First node at the given root-relative path (real filesystems have at most
one). -/
def findNode (fs : FS) (p : PathParts) : Option Node :=
  fs.nodes.find? (fun n => n.parts == p)

/-- Model of `Path.is_file` (never raises; `False` when the path is absent). -/
def isFileAt (fs : FS) (p : PathParts) : Bool :=
  match findNode fs p with
  | some n => n.kind == .file
  | none => false

/-- Model of `Path.is_dir` (never raises; `False` when the path is absent). -/
def isDirAt (fs : FS) (p : PathParts) : Bool :=
  match findNode fs p with
  | some n => n.kind == .dir
  | none => false

/-- Whether listing the directory at `p` succeeds (`[]` denotes the root). -/
def dirReadableAt (fs : FS) (p : PathParts) : Bool :=
  match p with
  | [] => fs.rootReadable
  | _ =>
    match findNode fs p with
    | some n => n.readable
    | none => false

/-- Model of reading a file's text/bytes; `none` stands for the `OSError` or
`PermissionError` that every caller in the source catches per candidate. -/
def readText (fs : FS) (p : PathParts) : Option String :=
  match findNode fs p with
  | some n => if n.kind == .file && n.readable then some n.content else none
  | none => none

/-- Entries directly inside the directory at `p` (model of `Path.iterdir`,
which raises on an unreadable directory — callers handle that). -/
def childrenOf (fs : FS) (p : PathParts) : List Node :=
  fs.nodes.filter (fun n => n.parts.length == p.length + 1 && n.parts.take p.length == p)

/-- Directory names ignored by the traversal (source constant `IGNORED_DIRS`). -/
def IGNORED_DIRS : List String :=
  [".git", "node_modules", "bin", "obj", "dist", "build", ".venv"]

/-- Maximum bytes read per file when scanning contents (source constant). -/
def MAX_READ_BYTES : Nat := 64 * 1024

/-- Does any component of the (absolute) path belong to `IGNORED_DIRS`?
(model of `any(part in p.parts for part in IGNORED_DIRS)`). -/
def hasIgnored (parts : PathParts) : Bool :=
  parts.any (fun c => IGNORED_DIRS.contains c)

/-- Every proper ancestor directory of `p` below the root exists and is
readable; `rglob` only reaches a node when this holds. -/
def ancestorsOk (fs : FS) (p : PathParts) : Bool :=
  (List.range p.length).all fun i =>
    i == 0 ||
      (match findNode fs (p.take i) with
       | some n => n.kind == .dir && n.readable
       | none => false)

/-- Model of `walk_repo`: all regular files reachable by `root.rglob("*")`
(pruning unreadable directories, per CPython `pathlib` semantics) whose
absolute path has no ignored component.  An unreadable root yields `[]`. -/
def walk_repo (fs : FS) : List PathParts :=
  if fs.rootReadable then
    (fs.nodes.filter (fun n =>
        n.kind == .file && ancestorsOk fs n.parts
          && !hasIgnored (fs.rootParts ++ n.parts))).map (fun n => n.parts)
  else []

/-- Result of a single check (source dataclass `CheckResult`). -/
structure CheckResult where
  id : String
  name : String
  weight : Nat
  passed : Bool
  evidence : String
deriving DecidableEq, Repr

/-- Final component of a node's path (model of `Path.name` on walked paths). -/
def Node.name (n : Node) : String := lastName n.parts

/-- Condition of `check_readme` on an upper-cased file name:
`name == "README.MD" or (name.startswith("README.") and len(name) > 7)`. -/
def readmeMatch (s : String) : Bool :=
  let u := toUpperL s.data
  u == "README.MD".data || (startsL "README.".data u && decide (7 < u.length))

/-- Model of `check_readme` (weight 10); iterates `root.iterdir()`, which
raises when the root is unreadable. -/
def check_readme (fs : FS) : Except Unit CheckResult :=
  if fs.rootReadable then
    match (childrenOf fs []).find? (fun n => n.kind == .file && readmeMatch n.name) with
    | some n => .ok ⟨"readme", "README existe", 10, true, n.name⟩
    | none => .ok ⟨"readme", "README existe", 10, false, ""⟩
  else .error ()

/-- Model of `check_license` (weight 5); iterates `root.iterdir()`. -/
def check_license (fs : FS) : Except Unit CheckResult :=
  if fs.rootReadable then
    match (childrenOf fs []).find?
        (fun n => n.kind == .file && startsL "LICENSE".data (toUpperL n.name.data)) with
    | some n => .ok ⟨"license", "LICENSE existe", 5, true, n.name⟩
    | none => .ok ⟨"license", "LICENSE existe", 5, false, ""⟩
  else .error ()

/-- Model of `check_codeowners` (weight 10). -/
def check_codeowners (fs : FS) : CheckResult :=
  if isFileAt fs [".github", "CODEOWNERS"] then
    ⟨"codeowners", "CODEOWNERS existe", 10, true, renderPath [".github", "CODEOWNERS"]⟩
  else if isFileAt fs ["CODEOWNERS"] then
    ⟨"codeowners", "CODEOWNERS existe", 10, true, renderPath ["CODEOWNERS"]⟩
  else ⟨"codeowners", "CODEOWNERS existe", 10, false, ""⟩

/-- Fallback branch of `check_ci`: top-level `.gitlab-ci.yml`. -/
def gitlabResult (fs : FS) : CheckResult :=
  if isFileAt fs [".gitlab-ci.yml"] then
    ⟨"ci", "CI configurado", 15, true, ".gitlab-ci.yml"⟩
  else ⟨"ci", "CI configurado", 15, false, ""⟩

/-- Model of `check_ci` (weight 15): any entry of `.github/workflows` whose
suffix is `.yml`/`.yaml` (no `is_file` test in the source), else
`.gitlab-ci.yml`.  Iterating an unreadable workflows directory raises. -/
def check_ci (fs : FS) : Except Unit CheckResult :=
  if isDirAt fs [".github", "workflows"] then
    if dirReadableAt fs [".github", "workflows"] then
      match (childrenOf fs [".github", "workflows"]).find? (fun n =>
          let sfx := toLowerL (suffixL n.name.data)
          sfx == ".yml".data || sfx == ".yaml".data) with
      | some n => .ok ⟨"ci", "CI configurado", 15, true, renderPath n.parts⟩
      | none => .ok (gitlabResult fs)
    else .error ()
  else .ok (gitlabResult fs)

/-- Is the walked path inside a directory (or component) named like a test
folder? (model of `any(x in rel.parts for x in (...))`). -/
def underTestDir (rel : PathParts) : Bool :=
  ["test", "tests", "spec", "specs", "__tests__"].any (fun d => rel.contains d)

/-- Does the file's lowercased stem contain "test" or "spec"? -/
def testStem (rel : PathParts) : Bool :=
  let s := toLowerL (stemL (lastName rel).data)
  containsL "test".data s || containsL "spec".data s

/-- Model of `check_tests` (weight 15).  The source binds `paths =
walk_repo(root)` once; `walk_repo` is pure, so the binding is inlined. -/
def check_tests (fs : FS) : CheckResult :=
  if isDirAt fs ["tests"] || isDirAt fs ["test"] then
    ⟨"tests", "Tests presentes", 15, true, "tests/ o test/"⟩
  else
    match (walk_repo fs).find? (fun rel =>
        rel.contains "__tests__" || (testStem rel && underTestDir rel)) with
    | some rel => ⟨"tests", "Tests presentes", 15, true, renderPath rel⟩
    | none =>
      match (walk_repo fs).find? (fun rel => (fs.rootParts ++ rel).contains "__tests__") with
      | some rel => ⟨"tests", "Tests presentes", 15, true, renderPath rel⟩
      | none => ⟨"tests", "Tests presentes", 15, false, ""⟩

/-- Per-file condition of `check_linter`: known linter config names, or a
`pyproject.toml` whose first 8 KiB mention ruff/black/isort. -/
def linterHit (fs : FS) (rel : PathParts) : Bool :=
  let nm : String := ⟨toLowerL (lastName rel).data⟩
  nm == ".editorconfig" || startsL ".eslintrc".data nm.data ||
    nm == "ruff.toml" || nm == "stylecop.json" ||
    (nm == "pyproject.toml" &&
      (match readText fs rel with
       | some c =>
         let body := c.data.take 8192
         containsL "ruff".data body || containsL "black".data body ||
           containsL "isort".data body
       | none => false))

/-- Model of `check_linter` (weight 10). -/
def check_linter (fs : FS) : CheckResult :=
  match (walk_repo fs).find? (linterHit fs) with
  | some rel => ⟨"linter", "Linter config", 10, true, renderPath rel⟩
  | none => ⟨"linter", "Linter config", 10, false, ""⟩

/-- Model of `check_docker` (weight 10). -/
def check_docker (fs : FS) : CheckResult :=
  match ["Dockerfile", "docker-compose.yml", "docker-compose.yaml"].find?
      (fun nm => isFileAt fs [nm]) with
  | some nm => ⟨"docker", "Docker presente", 10, true, nm⟩
  | none => ⟨"docker", "Docker presente", 10, false, ""⟩

/-- Model of `check_security` (weight 10). -/
def check_security (fs : FS) : CheckResult :=
  if isFileAt fs ["SECURITY.md"] then
    ⟨"security", "Security docs/config", 10, true, "SECURITY.md"⟩
  else if isFileAt fs [".github", "dependabot.yml"] then
    ⟨"security", "Security docs/config", 10, true, ".github/dependabot.yml"⟩
  else ⟨"security", "Security docs/config", 10, false, ""⟩

/-- Recognised config-file suffixes of `check_observability`. -/
def OBS_SUFFIXES : List (List Char) :=
  [".json".data, ".toml".data, ".yml".data, ".yaml".data, ".txt".data,
   ".xml".data, ".gradle".data, ".mod".data]

/-- Per-file condition of `check_observability`: a recognised suffix or a
`config`/`conf`/`workflows` component, and the case-insensitive needle
`opentelemetry` within the first 64 KiB (a failed read skips the file). -/
def obsHit (fs : FS) (rel : PathParts) : Bool :=
  (OBS_SUFFIXES.contains (toLowerL (suffixL (lastName rel).data))
      || rel.contains "config" || rel.contains "conf" || rel.contains "workflows")
    && (match readText fs rel with
        | some c => containsL "opentelemetry".data (toLowerL (c.data.take MAX_READ_BYTES))
        | none => false)

/-- Model of `check_observability` (weight 5). -/
def check_observability (fs : FS) : CheckResult :=
  match (walk_repo fs).find? (obsHit fs) with
  | some rel => ⟨"observability", "OpenTelemetry en deps/config", 5, true, renderPath rel⟩
  | none => ⟨"observability", "OpenTelemetry en deps/config", 5, false, ""⟩

/-- Is `c` in the ASCII `\s` class? -/
def isSpaceChar (c : Char) : Bool :=
  c == ' ' || c == '\t' || c == '\n' || c == '\r' || c.toNat == 11 || c.toNat == 12

/-- Is `c` matched by the regex class `[\d.]`? -/
def isVerChar (c : Char) : Bool := c.isDigit || c == '.'

/-- The double-quote character. -/
def dquote : Char := Char.ofNat 34

/-- A single or double quote (regex class from the version pattern). -/
def quoteChar (c : Char) : Bool := c == dquote || c.toNat == 39

/-- Does a match of `"(?:version|Version)"\s*:\s*["\']?[\d.]+\d["\']?` (with
`re.I`) start exactly at the head of `cs`?  The trailing optional quote always
matches, and `[\d.]+\d` matches some block iff the maximal `[\d.]` run has a
digit at an index at least 1. -/
def vMatchAt (cs : List Char) : Bool :=
  match cs with
  | c :: r1 =>
    c == dquote && ciStarts "version".data r1 &&
      (match r1.drop 7 with
       | c2 :: r2 =>
         c2 == dquote &&
           (match r2.dropWhile isSpaceChar with
            | c3 :: r4 =>
              c3 == ':' &&
                (let r5 := r4.dropWhile isSpaceChar
                 let r6 := match r5 with
                   | c4 :: t => if quoteChar c4 then t else r5
                   | [] => r5
                 ((r6.takeWhile isVerChar).drop 1).any Char.isDigit)
            | [] => false)
       | [] => false)
  | [] => false

/-- Model of `version_pattern.search`: a match starting at some position. -/
def vSearch : List Char → Bool
  | [] => false
  | c :: cs => vMatchAt (c :: cs) || vSearch cs

/-- Does a match of `<Version>[\d.]+</Version>` (with `re.I`) start exactly at
the head of `cs`? -/
def csMatchAt (cs : List Char) : Bool :=
  ciStarts "<version>".data cs &&
    (let r := cs.drop 9
     let run := r.takeWhile isVerChar
     !run.isEmpty && ciStarts "</version>".data (r.drop run.length))

/-- Model of `version_csproj.search`. -/
def csSearch : List Char → Bool
  | [] => false
  | c :: cs => csMatchAt (c :: cs) || csSearch cs

/-- Top-level `package.json`/`pyproject.toml` branch of the release check:
the file exists, its read succeeds, and the version pattern matches its first
4096 characters. -/
def topVersionHit (fs : FS) (nm : String) : Bool :=
  isFileAt fs [nm] &&
    (match readText fs [nm] with
     | some t => vSearch (t.data.take 4096)
     | none => false)

/-- Per-file `.csproj` condition of the release check. -/
def csprojHit (fs : FS) (rel : PathParts) : Bool :=
  toLowerL (suffixL (lastName rel).data) == ".csproj".data && isFileAt fs rel &&
    (match readText fs rel with
     | some t => csSearch (t.data.take 4096)
     | none => false)

/-- Model of `check_release_hygiene` (weight 10). -/
def check_release_hygiene (fs : FS) : CheckResult :=
  if isFileAt fs ["CHANGELOG.md"] then
    ⟨"release", "Release hygiene", 10, true, "CHANGELOG.md"⟩
  else
    match ["package.json", "pyproject.toml"].find? (topVersionHit fs) with
    | some nm => ⟨"release", "Release hygiene", 10, true, nm ++ " (version)"⟩
    | none =>
      match (walk_repo fs).find? (csprojHit fs) with
      | some rel => ⟨"release", "Release hygiene", 10, true, renderPath rel⟩
      | none => ⟨"release", "Release hygiene", 10, false, ""⟩

/-- Model of `run_all_checks`: the ten checks in registry order; a check that
raises propagates (`[fn(root) for fn in runners]` stops at the exception). -/
def run_all_checks (fs : FS) : Except Unit (List CheckResult) :=
  match check_readme fs with
  | .error e => .error e
  | .ok r1 =>
    match check_license fs with
    | .error e => .error e
    | .ok r2 =>
      match check_ci fs with
      | .error e => .error e
      | .ok r4 =>
        .ok [r1, r2, check_codeowners fs, r4, check_tests fs, check_linter fs,
             check_docker fs, check_security fs, check_observability fs,
             check_release_hygiene fs]

/-- Model of `compute_score`: the sum of the weights of the passed checks. -/
def compute_score (checks : List CheckResult) : Nat :=
  ((checks.filter (fun c => c.passed)).map (fun c => c.weight)).sum

/-- What `main`'s `--path` argument resolves to. -/
inductive PathTarget where
  | missing
  | nonDir
  | dir (fs : FS)
deriving DecidableEq

/-- The CLI arguments that `main` consumes. -/
structure Args where
  target : PathTarget
  outText : Bool
  minScore : Option Int
deriving DecidableEq

/-- Events that `main` emits: the rendered report on stdout (content
abstracted to the output format and the score it displays) and a line on
stderr. -/
inductive OutEvent where
  | report (outText : Bool) (score : Nat)
  | errLine (msg : String)
deriving DecidableEq

/-- The stderr diagnostic of the CI gate (source f-string). -/
def gateMsg (score : Nat) (m : Int) : String :=
  "Score " ++ toString score ++ " por debajo del mínimo " ++ toString m ++ "."

/-- Model of `main`: validation, checks, report rendering, CI gate.  The result
is the emitted event trace and the exit code; `Except.error ()` models an
exception escaping `main` (the process then exits without the report). -/
def main (a : Args) : Except Unit (List OutEvent × Nat) :=
  match a.target with
  | .missing => .ok ([.errLine "Error: la ruta no existe."], 1)
  | .nonDir => .ok ([.errLine "Error: la ruta no es un directorio."], 1)
  | .dir fs =>
    if fs.rootReadable then
      match run_all_checks fs with
      | .error e => .error e
      | .ok checks =>
        let score := compute_score checks
        match a.minScore with
        | some m =>
          if (score : Int) < m then
            .ok ([.report a.outText score, .errLine (gateMsg score m)], 1)
          else
            .ok ([.report a.outText score], 0)
        | none => .ok ([.report a.outText score], 0)
    else .ok ([.errLine "Error: sin permiso de lectura en el directorio."], 1)

/-- Well-formedness of a filesystem model: every node's path is nonempty and
has nonempty components (as on a real filesystem). -/
def FS.wf (fs : FS) : Bool :=
  fs.nodes.all (fun n => !n.parts.isEmpty && n.parts.all (fun c => !(c == "")))

/-- Add one regular, readable file to the repository (model of creating a
file; used to state score monotonicity). -/
def addFile (fs : FS) (p : PathParts) (content : String) : FS :=
  ⟨fs.rootParts, fs.rootReadable, fs.nodes ++ [⟨p, .file, true, content⟩]⟩

/-- Turn the directory node at `d` unreadable, leaving everything else as it
is (model of revoking read permission on one directory). -/
def setDirUnreadable (fs : FS) (d : PathParts) : FS :=
  ⟨fs.rootParts, fs.rootReadable,
    fs.nodes.map (fun n =>
      if n.parts = d ∧ n.kind = .dir then ⟨n.parts, n.kind, false, n.content⟩ else n)⟩

/-! ### Concrete repositories used as witnesses and counterexamples -/

/-- An empty repository at a clean absolute path. -/
def fsEmpty : FS := ⟨["repo"], true, []⟩

/-- A repository whose only file is a top-level `README.md`. -/
def fsReadme : FS := ⟨["repo"], true, [⟨["README.md"], .file, true, ""⟩]⟩

/-- The check results on `fsEmpty`: every check fails. -/
def rsEmpty : List CheckResult :=
  [⟨"readme", "README existe", 10, false, ""⟩,
   ⟨"license", "LICENSE existe", 5, false, ""⟩,
   ⟨"codeowners", "CODEOWNERS existe", 10, false, ""⟩,
   ⟨"ci", "CI configurado", 15, false, ""⟩,
   ⟨"tests", "Tests presentes", 15, false, ""⟩,
   ⟨"linter", "Linter config", 10, false, ""⟩,
   ⟨"docker", "Docker presente", 10, false, ""⟩,
   ⟨"security", "Security docs/config", 10, false, ""⟩,
   ⟨"observability", "OpenTelemetry en deps/config", 5, false, ""⟩,
   ⟨"release", "Release hygiene", 10, false, ""⟩]

/-- The check results on `fsReadme`: only the readme check passes. -/
def rsReadme : List CheckResult :=
  [⟨"readme", "README existe", 10, true, "README.md"⟩,
   ⟨"license", "LICENSE existe", 5, false, ""⟩,
   ⟨"codeowners", "CODEOWNERS existe", 10, false, ""⟩,
   ⟨"ci", "CI configurado", 15, false, ""⟩,
   ⟨"tests", "Tests presentes", 15, false, ""⟩,
   ⟨"linter", "Linter config", 10, false, ""⟩,
   ⟨"docker", "Docker presente", 10, false, ""⟩,
   ⟨"security", "Security docs/config", 10, false, ""⟩,
   ⟨"observability", "OpenTelemetry en deps/config", 5, false, ""⟩,
   ⟨"release", "Release hygiene", 10, false, ""⟩]

/-- A repository whose only file is a `pyproject.toml` carrying the standard
TOML version field with a numeric dotted value. -/
def fsPyproject : FS :=
  ⟨["repo"], true,
    [⟨["pyproject.toml"], .file, true,
      "[project]\nname = \"app\"\nversion = \"1.2.3\"\n"⟩]⟩

/-- The same version value written in the JSON syntax the source pattern
expects, placed in a top-level `package.json`. -/
def fsPackageJson : FS :=
  ⟨["repo"], true, [⟨["package.json"], .file, true, "\"version\": \"1.2.3\""⟩]⟩

/-- A readable repository whose `.github/workflows` directory exists but is
not readable. -/
def fsBadCi : FS :=
  ⟨["repo"], true,
    [⟨[".github"], .dir, true, ""⟩, ⟨[".github", "workflows"], .dir, false, ""⟩]⟩

/-- A repository containing a `__tests__` directory with no files in it. -/
def fsEmptyTestsDir : FS :=
  ⟨["repo"], true, [⟨["pkg"], .dir, true, ""⟩, ⟨["pkg", "__tests__"], .dir, true, ""⟩]⟩

/-- A repository whose only test evidence is a file inside a `__tests__`
directory. -/
def fsTestsFile : FS :=
  ⟨["repo"], true,
    [⟨["pkg"], .dir, true, ""⟩, ⟨["pkg", "__tests__"], .dir, true, ""⟩,
     ⟨["pkg", "__tests__", "x.js"], .file, true, ""⟩]⟩

/-- A repository in which `.github/workflows` contains only a subdirectory
whose name ends in `.yml`, and no `.gitlab-ci.yml` exists. -/
def fsDirWorkflow : FS :=
  ⟨["repo"], true,
    [⟨[".github"], .dir, true, ""⟩, ⟨[".github", "workflows"], .dir, true, ""⟩,
     ⟨[".github", "workflows", "deploy.yml"], .dir, true, ""⟩]⟩

/-- A repository whose only top-level README candidate is a file named
`README.` (trailing dot, nothing after it), next to an unrelated `LICENSE`
file. -/
def fsReadmeDot : FS :=
  ⟨["repo"], true,
    [⟨["README."], .file, true, ""⟩, ⟨["LICENSE"], .file, true, ""⟩]⟩

/-- A repository with a file beside an unreadable directory that also holds a
file. -/
def fsPermMix : FS :=
  ⟨["repo"], true,
    [⟨["a.txt"], .file, true, ""⟩, ⟨["secret"], .dir, true, ""⟩,
     ⟨["secret", "b.txt"], .file, true, ""⟩]⟩

/-! ### Helper lemmas -/

/-- `compute_score` distributes over `cons` as an if-then-else. -/
theorem compute_score_cons (c : CheckResult) (t : List CheckResult) :
    compute_score (c :: t) = (if c.passed then c.weight else 0) + compute_score t := by
  unfold compute_score
  rw [List.filter_cons]
  split
  · simp
  · simp

/-- `compute_score` is the sum of `if passed then weight else 0`. -/
theorem compute_score_eq_ite_sum (l : List CheckResult) :
    compute_score l = (l.map (fun c => if c.passed then c.weight else 0)).sum := by
  induction l with
  | nil => rfl
  | cons c t ih => rw [compute_score_cons, ih]; simp

/-- `compute_score` never exceeds the sum of all weights. -/
theorem compute_score_le_weight_sum (l : List CheckResult) :
    compute_score l ≤ (l.map (fun c => c.weight)).sum := by
  induction l with
  | nil => exact Nat.le_refl 0
  | cons c t ih =>
    rw [compute_score_cons]
    simp only [List.map_cons, List.sum_cons]
    have : (if c.passed then c.weight else 0) ≤ c.weight := by split <;> simp
    omega

/-- Successful runs decompose into the ten registry results in order. -/
theorem run_all_checks_eq (fs : FS) (rs : List CheckResult)
    (h : run_all_checks fs = .ok rs) :
    ∃ r1 r2 r4, check_readme fs = .ok r1 ∧ check_license fs = .ok r2 ∧
      check_ci fs = .ok r4 ∧
      rs = [r1, r2, check_codeowners fs, r4, check_tests fs, check_linter fs,
            check_docker fs, check_security fs, check_observability fs,
            check_release_hygiene fs] := by
  unfold run_all_checks at h
  cases h1 : check_readme fs with
  | error e => rw [h1] at h; exact absurd h (by simp)
  | ok r1 =>
    rw [h1] at h
    cases h2 : check_license fs with
    | error e => rw [h2] at h; exact absurd h (by simp)
    | ok r2 =>
      rw [h2] at h
      cases h4 : check_ci fs with
      | error e => rw [h4] at h; exact absurd h (by simp)
      | ok r4 =>
        rw [h4] at h
        simp only [Except.ok.injEq] at h
        exact ⟨r1, r2, r4, rfl, rfl, rfl, h.symm⟩

/-- The last component of a nonempty path is one of its components. -/
theorem lastName_mem (p : PathParts) (h : p ≠ []) : lastName p ∈ p := by
  induction p with
  | nil => exact absurd rfl h
  | cons a t ih =>
    cases t with
    | nil => simp [lastName, List.getLastD]
    | cons b t2 =>
      have he : lastName (a :: b :: t2) = lastName (b :: t2) := by
        simp [lastName, List.getLastD]
      rw [he]
      exact List.mem_cons_of_mem a (ih (by simp))

/-- Rendering a path of at least two components is never empty. -/
theorem renderPath_ne_of_len2 (p : PathParts) (h : 2 ≤ p.length) : renderPath p ≠ "" := by
  match p with
  | [] => simp at h
  | [a] => simp at h
  | a :: b :: t =>
    intro hcon
    have h2 := congrArg String.length hcon
    have hr : renderPath (a :: b :: t) = a ++ "/" ++ renderPath (b :: t) := rfl
    have h1 : ("/" : String).length = 1 := rfl
    rw [hr, String.length_append, String.length_append, h1] at h2
    simp at h2

/-- Rendering a nonempty path with a nonempty last component is nonempty. -/
theorem renderPath_ne (p : PathParts) (h1 : p ≠ []) (h2 : lastName p ≠ "") :
    renderPath p ≠ "" := by
  match p with
  | [] => exact absurd rfl h1
  | [a] =>
    have : lastName [a] = a := by simp [lastName, List.getLastD]
    rw [this] at h2
    simpa [renderPath] using h2
  | a :: b :: t => exact renderPath_ne_of_len2 _ (by simp)

/-- On a well-formed filesystem every walked path is nonempty and ends in a
nonempty component. -/
theorem walk_repo_wf (fs : FS) (hwf : fs.wf = true) :
    ∀ rel ∈ walk_repo fs, rel ≠ [] ∧ lastName rel ≠ "" := by
  intro rel hrel
  unfold walk_repo at hrel
  split at hrel
  · simp only [List.mem_map] at hrel
    obtain ⟨n, hn, hparts⟩ := hrel
    have hn' : n ∈ fs.nodes := (List.mem_filter.mp hn).1
    unfold FS.wf at hwf
    rw [List.all_eq_true] at hwf
    have hx := hwf n hn'
    rw [Bool.and_eq_true] at hx
    obtain ⟨hne, hcomp⟩ := hx
    rw [List.all_eq_true] at hcomp
    have hne' : n.parts ≠ [] := by
      intro hc
      rw [hc] at hne
      simp at hne
    subst hparts
    refine ⟨hne', ?_⟩
    have hmem := lastName_mem n.parts hne'
    have := hcomp _ hmem
    intro hc
    rw [hc] at this
    simp at this
  · simp at hrel

/-- Specification of a successful `check_readme`: the root was readable, the
weight is 10 and the evidence is empty exactly on failure. -/
theorem check_readme_ok_spec (fs : FS) (r : CheckResult)
    (h : check_readme fs = .ok r) :
    fs.rootReadable = true ∧ r.weight = 10 ∧
      (r.passed = false → r.evidence = "") ∧ (r.passed = true → r.evidence ≠ "") := by
  unfold check_readme at h
  by_cases hr : fs.rootReadable = true
  · rw [if_pos hr] at h
    refine ⟨hr, ?_⟩
    cases hf : (childrenOf fs []).find? (fun n => n.kind == .file && readmeMatch n.name) with
    | some n =>
      rw [hf] at h
      have hp := List.find?_some hf
      rw [Bool.and_eq_true] at hp
      simp only [Except.ok.injEq] at h
      subst h
      refine ⟨rfl, by simp, fun _ => ?_⟩
      intro hc
      have hc' : n.name = "" := hc
      have hm : readmeMatch n.name = true := hp.2
      rw [hc'] at hm
      exact absurd hm (by decide)
    | none =>
      rw [hf] at h
      simp only [Except.ok.injEq] at h
      subst h
      exact ⟨rfl, fun _ => rfl, by simp⟩
  · rw [if_neg hr] at h
    exact absurd h (by simp)

/-- Specification of a successful `check_license`. -/
theorem check_license_ok_spec (fs : FS) (r : CheckResult)
    (h : check_license fs = .ok r) :
    r.weight = 5 ∧
      (r.passed = false → r.evidence = "") ∧ (r.passed = true → r.evidence ≠ "") := by
  unfold check_license at h
  by_cases hr : fs.rootReadable = true
  · rw [if_pos hr] at h
    cases hf : (childrenOf fs []).find?
        (fun n => n.kind == .file && startsL "LICENSE".data (toUpperL n.name.data)) with
    | some n =>
      rw [hf] at h
      have hp := List.find?_some hf
      rw [Bool.and_eq_true] at hp
      simp only [Except.ok.injEq] at h
      subst h
      refine ⟨rfl, by simp, fun _ => ?_⟩
      intro hc
      have hc' : n.name = "" := hc
      have hs : startsL "LICENSE".data (toUpperL n.name.data) = true := hp.2
      rw [hc'] at hs
      exact absurd hs (by decide)
    | none =>
      rw [hf] at h
      simp only [Except.ok.injEq] at h
      subst h
      exact ⟨rfl, fun _ => rfl, by simp⟩
  · rw [if_neg hr] at h
    exact absurd h (by simp)

/-- Specification of a successful `check_ci`. -/
theorem check_ci_ok_spec (fs : FS) (r : CheckResult)
    (h : check_ci fs = .ok r) :
    r.weight = 15 ∧
      (r.passed = false → r.evidence = "") ∧ (r.passed = true → r.evidence ≠ "") := by
  have hgit : ∀ u : Unit,
      (gitlabResult fs).weight = 15 ∧
        ((gitlabResult fs).passed = false → (gitlabResult fs).evidence = "") ∧
        ((gitlabResult fs).passed = true → (gitlabResult fs).evidence ≠ "") := by
    intro _
    unfold gitlabResult
    split
    · exact ⟨rfl, by simp, fun _ => by decide⟩
    · exact ⟨rfl, fun _ => rfl, by simp⟩
  unfold check_ci at h
  by_cases hd : isDirAt fs [".github", "workflows"] = true
  · rw [if_pos hd] at h
    by_cases hrd : dirReadableAt fs [".github", "workflows"] = true
    · rw [if_pos hrd] at h
      cases hf : (childrenOf fs [".github", "workflows"]).find? (fun n =>
          let sfx := toLowerL (suffixL n.name.data)
          sfx == ".yml".data || sfx == ".yaml".data) with
      | some n =>
        rw [hf] at h
        simp only [Except.ok.injEq] at h
        subst h
        refine ⟨rfl, by simp, fun _ => ?_⟩
        have hn := List.mem_of_find?_eq_some hf
        have hlen : n.parts.length = 3 := by
          have := (List.mem_filter.mp hn).2
          rw [Bool.and_eq_true] at this
          have hl := this.1
          simpa using hl
        exact renderPath_ne_of_len2 n.parts (by omega)
      | none =>
        rw [hf] at h
        simp only [Except.ok.injEq] at h
        subst h
        exact hgit ()
    · rw [if_neg hrd] at h
      exact absurd h (by simp)
  · rw [if_neg hd] at h
    simp only [Except.ok.injEq] at h
    subst h
    exact hgit ()

/-- Specification of `check_codeowners`. -/
theorem check_codeowners_spec (fs : FS) :
    (check_codeowners fs).weight = 10 ∧
      ((check_codeowners fs).passed = false → (check_codeowners fs).evidence = "") ∧
      ((check_codeowners fs).passed = true → (check_codeowners fs).evidence ≠ "") := by
  unfold check_codeowners
  split
  · exact ⟨rfl, by simp, fun _ => by decide⟩
  split
  · exact ⟨rfl, by simp, fun _ => by decide⟩
  · exact ⟨rfl, fun _ => rfl, by simp⟩

/-- Specification of `check_tests`; the hypothesis holds on well-formed
filesystems by `walk_repo_wf`. -/
theorem check_tests_spec (fs : FS)
    (hw : ∀ rel ∈ walk_repo fs, rel ≠ [] ∧ lastName rel ≠ "") :
    (check_tests fs).weight = 15 ∧
      ((check_tests fs).passed = false → (check_tests fs).evidence = "") ∧
      ((check_tests fs).passed = true → (check_tests fs).evidence ≠ "") := by
  unfold check_tests
  split
  · exact ⟨rfl, by simp, fun _ => by decide⟩
  cases hf : (walk_repo fs).find? (fun rel =>
      rel.contains "__tests__" || (testStem rel && underTestDir rel)) with
  | some rel =>
    have hm := List.mem_of_find?_eq_some hf
    have hx := hw rel hm
    exact ⟨rfl, by simp, fun _ => renderPath_ne rel hx.1 hx.2⟩
  | none =>
    cases hf2 : (walk_repo fs).find? (fun rel => (fs.rootParts ++ rel).contains "__tests__") with
    | some rel =>
      have hm := List.mem_of_find?_eq_some hf2
      have hx := hw rel hm
      exact ⟨rfl, by simp, fun _ => renderPath_ne rel hx.1 hx.2⟩
    | none =>
      exact ⟨rfl, fun _ => rfl, by simp⟩

/-- Specification of `check_linter`. -/
theorem check_linter_spec (fs : FS)
    (hw : ∀ rel ∈ walk_repo fs, rel ≠ [] ∧ lastName rel ≠ "") :
    (check_linter fs).weight = 10 ∧
      ((check_linter fs).passed = false → (check_linter fs).evidence = "") ∧
      ((check_linter fs).passed = true → (check_linter fs).evidence ≠ "") := by
  unfold check_linter
  cases hf : (walk_repo fs).find? (linterHit fs) with
  | some rel =>
    have hm := List.mem_of_find?_eq_some hf
    have hx := hw rel hm
    exact ⟨rfl, by simp, fun _ => renderPath_ne rel hx.1 hx.2⟩
  | none =>
    exact ⟨rfl, fun _ => rfl, by simp⟩

/-- Specification of `check_docker`. -/
theorem check_docker_spec (fs : FS) :
    (check_docker fs).weight = 10 ∧
      ((check_docker fs).passed = false → (check_docker fs).evidence = "") ∧
      ((check_docker fs).passed = true → (check_docker fs).evidence ≠ "") := by
  unfold check_docker
  cases hf : ["Dockerfile", "docker-compose.yml", "docker-compose.yaml"].find?
      (fun nm => isFileAt fs [nm]) with
  | some nm =>
    refine ⟨rfl, by simp, fun _ => ?_⟩
    have hm := List.mem_of_find?_eq_some hf
    simp only [List.mem_cons, List.not_mem_nil, or_false] at hm
    rcases hm with h | h | h <;> (rw [h]; simp)
  | none =>
    exact ⟨rfl, fun _ => rfl, by simp⟩

/-- Specification of `check_security`. -/
theorem check_security_spec (fs : FS) :
    (check_security fs).weight = 10 ∧
      ((check_security fs).passed = false → (check_security fs).evidence = "") ∧
      ((check_security fs).passed = true → (check_security fs).evidence ≠ "") := by
  unfold check_security
  split
  · exact ⟨rfl, by simp, fun _ => by decide⟩
  split
  · exact ⟨rfl, by simp, fun _ => by decide⟩
  · exact ⟨rfl, fun _ => rfl, by simp⟩

/-- Specification of `check_observability`. -/
theorem check_observability_spec (fs : FS)
    (hw : ∀ rel ∈ walk_repo fs, rel ≠ [] ∧ lastName rel ≠ "") :
    (check_observability fs).weight = 5 ∧
      ((check_observability fs).passed = false → (check_observability fs).evidence = "") ∧
      ((check_observability fs).passed = true → (check_observability fs).evidence ≠ "") := by
  unfold check_observability
  cases hf : (walk_repo fs).find? (obsHit fs) with
  | some rel =>
    have hm := List.mem_of_find?_eq_some hf
    have hx := hw rel hm
    exact ⟨rfl, by simp, fun _ => renderPath_ne rel hx.1 hx.2⟩
  | none =>
    exact ⟨rfl, fun _ => rfl, by simp⟩

/-- Specification of `check_release_hygiene`. -/
theorem check_release_spec (fs : FS)
    (hw : ∀ rel ∈ walk_repo fs, rel ≠ [] ∧ lastName rel ≠ "") :
    (check_release_hygiene fs).weight = 10 ∧
      ((check_release_hygiene fs).passed = false →
        (check_release_hygiene fs).evidence = "") ∧
      ((check_release_hygiene fs).passed = true →
        (check_release_hygiene fs).evidence ≠ "") := by
  unfold check_release_hygiene
  split
  · exact ⟨rfl, by simp, fun _ => by decide⟩
  cases hf : ["package.json", "pyproject.toml"].find? (topVersionHit fs) with
  | some nm =>
    refine ⟨rfl, by simp, fun _ => ?_⟩
    intro hc
    have h2 := congrArg String.length hc
    rw [String.length_append] at h2
    have : (" (version)" : String).length = 10 := rfl
    rw [this] at h2
    simp at h2
  | none =>
    cases hf2 : (walk_repo fs).find? (csprojHit fs) with
    | some rel =>
      have hm := List.mem_of_find?_eq_some hf2
      have hx := hw rel hm
      exact ⟨rfl, by simp, fun _ => renderPath_ne rel hx.1 hx.2⟩
    | none =>
      exact ⟨rfl, fun _ => rfl, by simp⟩

/-- The tests check always reports weight 15. -/
theorem check_tests_weight (fs : FS) : (check_tests fs).weight = 15 := by
  unfold check_tests
  split
  · rfl
  split
  · rfl
  split <;> rfl

/-- The linter check always reports weight 10. -/
theorem check_linter_weight (fs : FS) : (check_linter fs).weight = 10 := by
  unfold check_linter
  split <;> rfl

/-- The observability check always reports weight 5. -/
theorem check_observability_weight (fs : FS) : (check_observability fs).weight = 5 := by
  unfold check_observability
  split <;> rfl

/-- The release check always reports weight 10. -/
theorem check_release_weight (fs : FS) : (check_release_hygiene fs).weight = 10 := by
  unfold check_release_hygiene
  split
  · rfl
  split
  · rfl
  split <;> rfl

/-- The weights of a successful run are the fixed registry weights. -/
theorem run_all_checks_weights (fs : FS) (rs : List CheckResult)
    (h : run_all_checks fs = .ok rs) :
    rs.map (fun c => c.weight) = [10, 5, 10, 15, 15, 10, 10, 10, 5, 10] := by
  obtain ⟨r1, r2, r4, h1, h2, h4, hrs⟩ := run_all_checks_eq fs rs h
  subst hrs
  have w1 := (check_readme_ok_spec fs r1 h1).2.1
  have w2 := (check_license_ok_spec fs r2 h2).1
  have w4 := (check_ci_ok_spec fs r4 h4).1
  have w3 := (check_codeowners_spec fs).1
  have w6 := (check_linter_weight fs)
  have w5 := (check_tests_weight fs)
  have w7 := (check_docker_spec fs).1
  have w8 := (check_security_spec fs).1
  have w9 := (check_observability_weight fs)
  have w10 := (check_release_weight fs)
  simp only [List.map_cons, List.map_nil]
  rw [w1, w2, w3, w4, w5, w6, w7, w8, w9, w10]

/-! ### Claims -/

/-- C1.  For every repository root on which the checks complete, the score
returned by `compute_score` on the list produced by `run_all_checks` equals
the sum of the weights of exactly those `CheckResult`s whose `passed` field is
true, and this score lies in `[0, 100]`. -/
theorem C1_score_is_weight_sum_of_passed (fs : FS) (rs : List CheckResult)
    (h : run_all_checks fs = .ok rs) :
    compute_score rs = (rs.map (fun c => if c.passed then c.weight else 0)).sum ∧
      0 ≤ compute_score rs ∧ compute_score rs ≤ 100 := by
  refine ⟨compute_score_eq_ite_sum rs, Nat.zero_le _, ?_⟩
  have hle := compute_score_le_weight_sum rs
  rw [run_all_checks_weights fs rs h] at hle
  simpa using hle

/-- Witness for C1 at a concrete repository. -/
theorem C1_witness :
    run_all_checks fsReadme = .ok rsReadme ∧
      (compute_score rsReadme =
          (rsReadme.map (fun c => if c.passed then c.weight else 0)).sum ∧
        0 ≤ compute_score rsReadme ∧ compute_score rsReadme ≤ 100) :=
  ⟨by decide, C1_score_is_weight_sum_of_passed fsReadme rsReadme (by decide)⟩

/-- C2.  The sum of the `weight` fields over the ten `CheckResult`s returned
by `run_all_checks` is exactly 100, for every repository root on which the
checks complete. -/
theorem C2_weights_sum_100 (fs : FS) (rs : List CheckResult)
    (h : run_all_checks fs = .ok rs) :
    (rs.map (fun c => c.weight)).sum = 100 ∧ rs.length = 10 := by
  have hw := run_all_checks_weights fs rs h
  constructor
  · rw [hw]; rfl
  · have := congrArg List.length hw
    simpa using this

/-- Witness for C2 at a concrete repository. -/
theorem C2_witness :
    run_all_checks fsEmpty = .ok rsEmpty ∧
      ((rsEmpty.map (fun c => c.weight)).sum = 100 ∧ rsEmpty.length = 10) :=
  ⟨by decide, C2_weights_sum_100 fsEmpty rsEmpty (by decide)⟩

/-- C3, counterexample.  The claim promises exit code 0 for every run on a
valid directory without `--min-score`; on a valid, readable directory whose
`.github/workflows` subdirectory is unreadable, `check_ci` raises an uncaught
`PermissionError` inside `run_all_checks`, so `main` neither renders the
report nor returns 0. -/
theorem C3_counterexample_ci_raises :
    main ⟨.dir fsBadCi, false, none⟩ = .error () := by decide

/-- C3, amended.  For every run with a valid directory path on which the
checks complete without raising: with no `--min-score` the exit code is 0
regardless of the score; with a threshold `n` the exit code is 1 when
`score < n` (with a stderr diagnostic naming the score and the threshold) and
0 when `score ≥ n`; in all cases the report is rendered to stdout before the
gate decision, so rendering is never suppressed by gate failure. -/
theorem C3_gate_after_render (fs : FS) (rs : List CheckResult) (outText : Bool)
    (h : run_all_checks fs = .ok rs) :
    main ⟨.dir fs, outText, none⟩ =
        .ok ([.report outText (compute_score rs)], 0) ∧
      (∀ n : Int, (compute_score rs : Int) < n →
        main ⟨.dir fs, outText, some n⟩ =
          .ok ([.report outText (compute_score rs),
                .errLine (gateMsg (compute_score rs) n)], 1)) ∧
      (∀ n : Int, n ≤ (compute_score rs : Int) →
        main ⟨.dir fs, outText, some n⟩ =
          .ok ([.report outText (compute_score rs)], 0)) := by
  obtain ⟨r1, _, _, h1, _, _, _⟩ := run_all_checks_eq fs rs h
  have hroot := (check_readme_ok_spec fs r1 h1).1
  refine ⟨?_, fun n hn => ?_, fun n hn => ?_⟩
  · unfold main
    dsimp only
    rw [if_pos hroot, h]
  · unfold main
    dsimp only
    rw [if_pos hroot, h]
    dsimp only
    rw [if_pos hn]
  · unfold main
    dsimp only
    rw [if_pos hroot, h]
    dsimp only
    rw [if_neg (not_lt.mpr hn)]

/-- Witness for C3 (amended) at a concrete repository and threshold. -/
theorem C3_witness :
    run_all_checks fsEmpty = .ok rsEmpty ∧
      ((compute_score rsEmpty : Int) < 50) ∧
      main ⟨.dir fsEmpty, false, some 50⟩ =
        .ok ([.report false (compute_score rsEmpty),
              .errLine (gateMsg (compute_score rsEmpty) 50)], 1) :=
  ⟨by decide, by decide,
    (C3_gate_after_render fsEmpty rsEmpty false (by decide)).2.1 50 (by decide)⟩

/-- C4.  The release check fails on a repository whose only relevant file is a
`pyproject.toml` with the standard TOML version field `version = "1.2.3"`:
the source pattern requires a double-quoted key followed by a colon (JSON
syntax), which TOML never produces.  The second conjunct shows the same
value in `package.json` JSON syntax is detected, confirming the pattern is
JSON-shaped and the pyproject branch of the code cannot fire on real TOML. -/
theorem C4_pyproject_version_not_detected :
    check_release_hygiene fsPyproject =
        ⟨"release", "Release hygiene", 10, false, ""⟩ ∧
      check_release_hygiene fsPackageJson =
        ⟨"release", "Release hygiene", 10, true, "package.json (version)"⟩ :=
  ⟨by decide, by decide⟩

/-- The node transformer of `setDirUnreadable`. -/
def revokeAt (d : PathParts) (n : Node) : Node :=
  if n.parts = d ∧ n.kind = .dir then ⟨n.parts, n.kind, false, n.content⟩ else n

/-- `revokeAt` preserves the path of a node. -/
theorem revokeAt_parts (d : PathParts) (n : Node) : (revokeAt d n).parts = n.parts := by
  unfold revokeAt
  split <;> rfl

/-- `revokeAt` preserves the kind of a node. -/
theorem revokeAt_kind (d : PathParts) (n : Node) : (revokeAt d n).kind = n.kind := by
  unfold revokeAt
  split <;> rfl

/-- `revokeAt` fixes every node whose path differs from `d`. -/
theorem revokeAt_eq_self (d : PathParts) (n : Node) (h : n.parts ≠ d) :
    revokeAt d n = n := by
  unfold revokeAt
  exact if_neg (fun hc => h hc.1)

/-- Node lookup after revoking `d` is lookup before, transformed. -/
theorem findNode_setDirUnreadable (fs : FS) (d q : PathParts) :
    findNode (setDirUnreadable fs d) q = (findNode fs q).map (revokeAt d) := by
  show List.find? (fun n => n.parts == q) (fs.nodes.map (revokeAt d)) = _
  rw [List.find?_map]
  have hpred : ((fun n : Node => n.parts == q) ∘ revokeAt d) = (fun n : Node => n.parts == q) := by
    funext n
    show ((revokeAt d n).parts == q) = (n.parts == q)
    rw [revokeAt_parts]
  rw [hpred]
  rfl

/-- Revoking a directory that is not an ancestor of `p` does not change
whether `p`'s ancestors are readable. -/
theorem ancestorsOk_setDirUnreadable (fs : FS) (d p : PathParts)
    (hd : p.take d.length ≠ d) :
    ancestorsOk (setDirUnreadable fs d) p = ancestorsOk fs p := by
  have hne : ∀ i : Nat, p.take i ≠ d := by
    intro i hc
    rcases le_or_lt i p.length with hle | hlt
    · have hlen : d.length = i := by
        rw [← hc, List.length_take]
        omega
      exact hd (by rw [hlen, hc])
    · have hpi : p.take i = p := List.take_of_length_le (by omega)
      have hlen : d.length = p.length := by rw [← hc, hpi]
      have htk : p.take d.length = p := by rw [hlen]; exact List.take_length p
      exact hd (by rw [htk, ← hpi, hc])
  unfold ancestorsOk
  congr 1
  funext i
  congr 1
  rw [findNode_setDirUnreadable]
  cases hfn : findNode fs (p.take i) with
  | none => rfl
  | some m =>
    have hm : m.parts = p.take i := by
      have := List.find?_some hfn
      exact eq_of_beq this
    rw [Option.map_some']
    rw [revokeAt_eq_self d m (by rw [hm]; exact hne i)]

/-- Readable ancestors after revoking `d` imply readable ancestors before. -/
theorem ancestorsOk_of_setDirUnreadable (fs : FS) (d p : PathParts)
    (h : ancestorsOk (setDirUnreadable fs d) p = true) :
    ancestorsOk fs p = true := by
  unfold ancestorsOk at h ⊢
  rw [List.all_eq_true] at h ⊢
  intro i hi
  have hx := h i hi
  rw [Bool.or_eq_true] at hx ⊢
  rcases hx with hx | hx
  · exact Or.inl hx
  refine Or.inr ?_
  rw [findNode_setDirUnreadable] at hx
  cases hfn : findNode fs (p.take i) with
  | none => rw [hfn] at hx; simp at hx
  | some m =>
    rw [hfn, Option.map_some'] at hx
    by_cases hc : m.parts = d ∧ m.kind = .dir
    · unfold revokeAt at hx
      rw [if_pos hc] at hx
      simp at hx
    · unfold revokeAt at hx
      rw [if_neg hc] at hx
      exact hx

/-- C5.  Making one directory unreadable removes from `walk_repo`'s result
exactly the files below that directory: every file not below it is still
returned (the traversal is not abandoned), and no new file appears. -/
theorem C5_walk_skips_only_unreadable (fs : FS) (d p : PathParts) :
    (p ∈ walk_repo fs → p.take d.length ≠ d →
        p ∈ walk_repo (setDirUnreadable fs d)) ∧
      (p ∈ walk_repo (setDirUnreadable fs d) → p ∈ walk_repo fs) := by
  constructor
  · intro hmem hd
    unfold walk_repo at hmem ⊢
    by_cases hr : fs.rootReadable = true
    · rw [if_pos hr] at hmem
      have hr' : (setDirUnreadable fs d).rootReadable = true := hr
      rw [if_pos hr']
      rw [List.mem_map] at hmem ⊢
      obtain ⟨n, hn, hp⟩ := hmem
      rw [List.mem_filter] at hn
      obtain ⟨hn1, hn2⟩ := hn
      rw [Bool.and_eq_true, Bool.and_eq_true] at hn2
      obtain ⟨⟨hkind, hanc⟩, hign⟩ := hn2
      have hpd : n.parts ≠ d := by
        intro hc
        apply hd
        rw [← hp, hc]
        simp
      have hgn : revokeAt d n = n := revokeAt_eq_self d n hpd
      refine ⟨n, ?_, hp⟩
      rw [List.mem_filter]
      constructor
      · show n ∈ fs.nodes.map (revokeAt d)
        rw [← hgn]
        exact List.mem_map_of_mem (revokeAt d) hn1
      · rw [Bool.and_eq_true, Bool.and_eq_true]
        refine ⟨⟨hkind, ?_⟩, hign⟩
        rw [ancestorsOk_setDirUnreadable fs d n.parts (by rw [hp]; exact hd)]
        exact hanc
    · rw [if_neg hr] at hmem
      cases hmem
  · intro hmem
    unfold walk_repo at hmem ⊢
    by_cases hr : fs.rootReadable = true
    · have hr' : (setDirUnreadable fs d).rootReadable = true := hr
      rw [if_pos hr'] at hmem
      rw [if_pos hr]
      rw [List.mem_map] at hmem ⊢
      obtain ⟨n', hn', hp⟩ := hmem
      rw [List.mem_filter] at hn'
      obtain ⟨hn1, hn2⟩ := hn'
      rw [Bool.and_eq_true, Bool.and_eq_true] at hn2
      obtain ⟨⟨hkind, hanc⟩, hign⟩ := hn2
      show ∃ n ∈ fs.nodes.filter _, n.parts = p
      have hn1' : n' ∈ fs.nodes.map (revokeAt d) := hn1
      rw [List.mem_map] at hn1'
      obtain ⟨n, hn, hgn⟩ := hn1'
      have hkn : n.kind = .file := by
        have : (revokeAt d n).kind = n.kind := revokeAt_kind d n
        rw [hgn] at this
        rw [← this]
        exact of_decide_eq_true hkind
      have hfix : revokeAt d n = n := by
        unfold revokeAt
        split
        · next hc =>
          exact absurd hkn (by rw [hc.2]; simp)
        · rfl
      have hnn : n = n' := by rw [← hgn, hfix]
      subst hnn
      refine ⟨n, ?_, hp⟩
      rw [List.mem_filter]
      refine ⟨hn, ?_⟩
      rw [Bool.and_eq_true, Bool.and_eq_true]
      exact ⟨⟨hkind, ancestorsOk_of_setDirUnreadable fs d n.parts hanc⟩, hign⟩
    · have hr' : (setDirUnreadable fs d).rootReadable = fs.rootReadable := rfl
      rw [if_neg (by rw [hr']; exact hr)] at hmem
      cases hmem

/-- Witness for C5: with `secret/` made unreadable, the sibling file
`a.txt` is still walked, while `secret/b.txt` was walked before. -/
theorem C5_witness :
    (["a.txt"] ∈ walk_repo fsPermMix ∧
        (["a.txt"].take (["secret"] : PathParts).length ≠ ["secret"]) ∧
        ["a.txt"] ∈ walk_repo (setDirUnreadable fsPermMix ["secret"]) ∧
        ["secret", "b.txt"] ∈ walk_repo fsPermMix) ∧
      ["secret", "b.txt"] ∉ walk_repo (setDirUnreadable fsPermMix ["secret"]) :=
  ⟨⟨by decide, by decide,
    (C5_walk_skips_only_unreadable fsPermMix ["secret"] ["a.txt"]).1
      (by decide) (by decide), by decide⟩, by decide⟩

/-- C6, counterexample.  The claim says a `__tests__` directory anywhere —
even one containing no files — makes the tests check pass; on a repository
whose `pkg/__tests__` directory exists but is empty, the check fails, because
the code only detects `__tests__` through the walked *files* below it. -/
theorem C6_counterexample_empty_tests_dir :
    isDirAt fsEmptyTestsDir ["pkg", "__tests__"] = true ∧
      check_tests fsEmptyTestsDir = ⟨"tests", "Tests presentes", 15, false, ""⟩ :=
  ⟨by decide, by decide⟩

/-- C6, amended.  For every root whose own absolute path has no `__tests__`
component: the tests check passes iff a top-level `tests/` or `test/`
directory exists, or some walked file has a `__tests__` component in its
relative path, or some walked file has a stem containing "test" or "spec" and
lies under a directory named `test`, `tests`, `spec`, `specs` or `__tests__`.
A `__tests__` directory containing no files does not make the check pass. -/
theorem C6_tests_iff (fs : FS)
    (hroot : fs.rootParts.contains "__tests__" = false) :
    (check_tests fs).passed = true ↔
      (isDirAt fs ["tests"] = true ∨ isDirAt fs ["test"] = true ∨
        ∃ rel ∈ walk_repo fs, rel.contains "__tests__" = true ∨
          (testStem rel = true ∧ underTestDir rel = true)) := by
  unfold check_tests
  split
  · next hdir =>
    rw [Bool.or_eq_true] at hdir
    simp only [true_iff]
    rcases hdir with h | h
    · exact Or.inl h
    · exact Or.inr (Or.inl h)
  · next hdir =>
    have hdir' : isDirAt fs ["tests"] = false ∧ isDirAt fs ["test"] = false := by
      rw [Bool.not_eq_true, Bool.or_eq_false_iff] at hdir
      exact hdir
    cases hf1 : (walk_repo fs).find? (fun rel =>
        rel.contains "__tests__" || (testStem rel && underTestDir rel)) with
    | some rel =>
      simp only [true_iff]
      refine Or.inr (Or.inr ⟨rel, List.mem_of_find?_eq_some hf1, ?_⟩)
      have hp := List.find?_some hf1
      rw [Bool.or_eq_true] at hp
      rcases hp with hp | hp
      · exact Or.inl hp
      · rw [Bool.and_eq_true] at hp
        exact Or.inr hp
    | none =>
      cases hf2 : (walk_repo fs).find? (fun rel =>
          (fs.rootParts ++ rel).contains "__tests__") with
      | some rel =>
        simp only [true_iff]
        refine Or.inr (Or.inr ⟨rel, List.mem_of_find?_eq_some hf2, Or.inl ?_⟩)
        have hp := List.find?_some hf2
        have hmem : "__tests__" ∈ fs.rootParts ++ rel := List.elem_iff.mp hp
        rw [List.mem_append] at hmem
        rcases hmem with hmem | hmem
        · have hc2 : fs.rootParts.contains "__tests__" = true := List.elem_iff.mpr hmem
          rw [hroot] at hc2
          cases hc2
        · exact List.elem_iff.mpr hmem
      | none =>
        refine ⟨fun hcon => absurd hcon (by simp), fun hcon => ?_⟩
        exfalso
        rcases hcon with h | h | ⟨rel, hmem, hrel⟩
        · rw [hdir'.1] at h; cases h
        · rw [hdir'.2] at h; cases h
        · have hno1 := List.find?_eq_none.mp hf1 rel hmem
          rcases hrel with h | ⟨h1, h2⟩
          · exact hno1 (by rw [Bool.or_eq_true]; exact Or.inl h)
          · exact hno1 (by
              rw [Bool.or_eq_true, Bool.and_eq_true]
              exact Or.inr ⟨h1, h2⟩)

/-- Witness for C6 (amended) at a repository whose `__tests__` directory does
contain a file. -/
theorem C6_witness :
    fsTestsFile.rootParts.contains "__tests__" = false ∧
      ((check_tests fsTestsFile).passed = true ↔
        (isDirAt fsTestsFile ["tests"] = true ∨ isDirAt fsTestsFile ["test"] = true ∨
          ∃ rel ∈ walk_repo fsTestsFile, rel.contains "__tests__" = true ∨
            (testStem rel = true ∧ underTestDir rel = true))) :=
  ⟨by decide, C6_tests_iff fsTestsFile (by decide)⟩

/-- Score monotonicity under pointwise equal weights and pointwise pass
implication. -/
theorem compute_score_mono : ∀ (l1 l2 : List CheckResult),
    l1.length = l2.length →
    (∀ (i : Nat) (h1 : i < l1.length) (h2 : i < l2.length),
      (l1.get ⟨i, h1⟩).weight = (l2.get ⟨i, h2⟩).weight) →
    (∀ (i : Nat) (h1 : i < l1.length) (h2 : i < l2.length),
      (l1.get ⟨i, h1⟩).passed = true → (l2.get ⟨i, h2⟩).passed = true) →
    compute_score l1 ≤ compute_score l2 := by
  intro l1
  induction l1 with
  | nil => intro l2 _ _ _; exact Nat.zero_le _
  | cons a t ih =>
    intro l2 hlen hw hp
    cases l2 with
    | nil => simp at hlen
    | cons b t2 =>
      rw [compute_score_cons, compute_score_cons]
      have hlen' : t.length = t2.length := by simpa using hlen
      have hw0 : a.weight = b.weight := hw 0 (by simp) (by simp)
      have hp0 : a.passed = true → b.passed = true := hp 0 (by simp) (by simp)
      have hhead : (if a.passed then a.weight else 0) ≤ (if b.passed then b.weight else 0) := by
        by_cases hA : a.passed = true
        · rw [if_pos hA, if_pos (hp0 hA)]
          exact Nat.le_of_eq hw0
        · rw [if_neg hA]
          exact Nat.zero_le _
      have htail := ih t2 hlen'
        (fun i h1 h2 => hw (i + 1) (Nat.succ_lt_succ h1) (Nat.succ_lt_succ h2))
        (fun i h1 h2 => hp (i + 1) (Nat.succ_lt_succ h1) (Nat.succ_lt_succ h2))
      omega

/-- C7.  Adding one file so that some previously failing check passes while
every other check's outcome is unchanged never decreases the score. -/
theorem C7_score_monotone (fs : FS) (p : PathParts) (content : String)
    (rs rs' : List CheckResult)
    (h : run_all_checks fs = .ok rs)
    (h' : run_all_checks (addFile fs p content) = .ok rs')
    (j : Nat) (hj : j < rs.length) (hj' : j < rs'.length)
    (hgain : (rs'.get ⟨j, hj'⟩).passed = true ∧ (rs.get ⟨j, hj⟩).passed = false)
    (hsame : ∀ (i : Nat) (h1 : i < rs.length) (h2 : i < rs'.length), i ≠ j →
      (rs.get ⟨i, h1⟩).passed = (rs'.get ⟨i, h2⟩).passed) :
    compute_score rs ≤ compute_score rs' := by
  have hwl := run_all_checks_weights fs rs h
  have hwl' := run_all_checks_weights _ rs' h'
  have hlen10 : rs.length = 10 := by
    have := congrArg List.length hwl
    simpa using this
  have hlen10' : rs'.length = 10 := by
    have := congrArg List.length hwl'
    simpa using this
  have hlen : rs.length = rs'.length := by omega
  apply compute_score_mono rs rs' hlen
  · intro i h1 h2
    have e1 : (rs.map (fun c => c.weight)).get ⟨i, by simpa using h1⟩ =
        (rs.get ⟨i, h1⟩).weight := List.get_map _
    have e2 : (rs'.map (fun c => c.weight)).get ⟨i, by simpa using h2⟩ =
        (rs'.get ⟨i, h2⟩).weight := List.get_map _
    have e3 := List.get_of_eq hwl ⟨i, by simpa using h1⟩
    have e4 := List.get_of_eq hwl' ⟨i, by simpa using h2⟩
    rw [← e1, ← e2, e3, e4]
  · intro i h1 h2 hpass
    by_cases hij : i = j
    · subst hij
      have : rs.get ⟨i, h1⟩ = rs.get ⟨i, hj⟩ := rfl
      rw [this, hgain.2] at hpass
      cases hpass
    · rw [← hsame i h1 h2 hij]
      exact hpass

/-- Witness for C7: adding `README.md` to the empty repository flips exactly
the readme check (index 0) and the score does not decrease. -/
theorem C7_witness :
    run_all_checks fsEmpty = .ok rsEmpty ∧
      run_all_checks (addFile fsEmpty ["README.md"] "") = .ok rsReadme ∧
      (rsReadme.get ⟨0, by decide⟩).passed = true ∧
      (rsEmpty.get ⟨0, by decide⟩).passed = false ∧
      compute_score rsEmpty ≤ compute_score rsReadme :=
  ⟨by decide, by decide, by decide, by decide,
    C7_score_monotone fsEmpty ["README.md"] "" rsEmpty rsReadme (by decide) (by decide)
      0 (by decide) (by decide) ⟨by decide, by decide⟩
      (by
        intro i h1 h2 hne
        have hlen : rsEmpty.length = 10 := rfl
        rw [hlen] at h1
        interval_cases i
        · exact absurd rfl hne
        all_goals rfl)⟩

/-- C8, counterexample.  The claim says no check ever raises; on a readable
root whose `.github/workflows` directory exists but is unreadable, the ci
check raises an uncaught `PermissionError` (its `iterdir` call is not
guarded). -/
theorem C8_counterexample_ci_raises :
    isDirAt fsBadCi [".github", "workflows"] = true ∧
      check_ci fsBadCi = .error () :=
  ⟨by decide, by decide⟩

/-- C8, amended.  On a well-formed repository whose root is readable and
whose `.github/workflows`, if it is a directory, is readable, all ten checks
complete without raising, and every produced `CheckResult` has empty evidence
exactly when it failed and nonempty evidence when it passed. -/
theorem C8_evidence_invariant (fs : FS)
    (hwf : fs.wf = true)
    (hroot : fs.rootReadable = true)
    (hci : isDirAt fs [".github", "workflows"] = true →
      dirReadableAt fs [".github", "workflows"] = true) :
    ∃ rs, run_all_checks fs = .ok rs ∧
      ∀ r ∈ rs, (r.passed = false → r.evidence = "") ∧
        (r.passed = true → r.evidence ≠ "") := by
  have hw : ∀ rel ∈ walk_repo fs, rel ≠ [] ∧ lastName rel ≠ "" := walk_repo_wf fs hwf
  have hready : ∃ r1, check_readme fs = .ok r1 := by
    unfold check_readme
    rw [if_pos hroot]
    cases hf : (childrenOf fs []).find? (fun n => n.kind == .file && readmeMatch n.name) with
    | some n => exact ⟨_, rfl⟩
    | none => exact ⟨_, rfl⟩
  have hlic : ∃ r2, check_license fs = .ok r2 := by
    unfold check_license
    rw [if_pos hroot]
    cases hf : (childrenOf fs []).find?
        (fun n => n.kind == .file && startsL "LICENSE".data (toUpperL n.name.data)) with
    | some n => exact ⟨_, rfl⟩
    | none => exact ⟨_, rfl⟩
  have hcio : ∃ r4, check_ci fs = .ok r4 := by
    unfold check_ci
    by_cases hd : isDirAt fs [".github", "workflows"] = true
    · rw [if_pos hd, if_pos (hci hd)]
      cases hf : (childrenOf fs [".github", "workflows"]).find? (fun n =>
          let sfx := toLowerL (suffixL n.name.data)
          sfx == ".yml".data || sfx == ".yaml".data) with
      | some n => exact ⟨_, rfl⟩
      | none => exact ⟨_, rfl⟩
    · rw [if_neg hd]
      exact ⟨_, rfl⟩
  obtain ⟨r1, h1⟩ := hready
  obtain ⟨r2, h2⟩ := hlic
  obtain ⟨r4, h4⟩ := hcio
  refine ⟨[r1, r2, check_codeowners fs, r4, check_tests fs, check_linter fs,
           check_docker fs, check_security fs, check_observability fs,
           check_release_hygiene fs],
    by unfold run_all_checks; rw [h1, h2, h4], ?_⟩
  intro r hr
  simp only [List.mem_cons, List.not_mem_nil, or_false] at hr
  rcases hr with hr | hr | hr | hr | hr | hr | hr | hr | hr | hr <;> rw [hr]
  · exact ⟨(check_readme_ok_spec fs r1 h1).2.2.1, (check_readme_ok_spec fs r1 h1).2.2.2⟩
  · exact ⟨(check_license_ok_spec fs r2 h2).2.1, (check_license_ok_spec fs r2 h2).2.2⟩
  · exact ⟨(check_codeowners_spec fs).2.1, (check_codeowners_spec fs).2.2⟩
  · exact ⟨(check_ci_ok_spec fs r4 h4).2.1, (check_ci_ok_spec fs r4 h4).2.2⟩
  · exact ⟨(check_tests_spec fs hw).2.1, (check_tests_spec fs hw).2.2⟩
  · exact ⟨(check_linter_spec fs hw).2.1, (check_linter_spec fs hw).2.2⟩
  · exact ⟨(check_docker_spec fs).2.1, (check_docker_spec fs).2.2⟩
  · exact ⟨(check_security_spec fs).2.1, (check_security_spec fs).2.2⟩
  · exact ⟨(check_observability_spec fs hw).2.1, (check_observability_spec fs hw).2.2⟩
  · exact ⟨(check_release_spec fs hw).2.1, (check_release_spec fs hw).2.2⟩

/-- Witness for C8 (amended) at a concrete repository with one passing and
nine failing checks. -/
theorem C8_witness :
    fsReadme.wf = true ∧ fsReadme.rootReadable = true ∧
      (isDirAt fsReadme [".github", "workflows"] = true →
        dirReadableAt fsReadme [".github", "workflows"] = true) ∧
      ∃ rs, run_all_checks fsReadme = .ok rs ∧
        ∀ r ∈ rs, (r.passed = false → r.evidence = "") ∧
          (r.passed = true → r.evidence ≠ "") :=
  ⟨by decide, by decide, by decide,
    C8_evidence_invariant fsReadme (by decide) (by decide) (by decide)⟩

/-- A prefix test survives dropping a tail of the pattern. -/
theorem startsL_of_append (p q cs : List Char) (h : startsL (p ++ q) cs = true) :
    startsL p cs = true := by
  induction p generalizing cs with
  | nil => rfl
  | cons a t ih =>
    cases cs with
    | nil =>
      rw [List.cons_append] at h
      exact absurd h (by simp [startsL])
    | cons c cs' =>
      rw [List.cons_append] at h
      unfold startsL at h ⊢
      rw [Bool.and_eq_true] at h ⊢
      exact ⟨h.1, ih cs' h.2⟩

/-- A name fails the readme condition once both of its disjuncts fail. -/
theorem readmeMatch_eq_false (s : String)
    (h1 : (toUpperL s.data == "README.MD".data) = false)
    (h2 : (startsL "README.".data (toUpperL s.data) &&
        decide (7 < (toUpperL s.data).length)) = false) :
    readmeMatch s = false := by
  unfold readmeMatch
  show (toUpperL s.data == "README.MD".data ||
      (startsL "README.".data (toUpperL s.data) &&
        decide (7 < (toUpperL s.data).length))) = false
  rw [h1, h2]
  rfl

/-- C9.  For every readable root whose top level contains a regular file
named (case-insensitively) exactly `README` or exactly `README.` and no other
README candidate — no other top-level file whose upper-cased name starts with
`README` — the readme check fails: a pass requires at least one character
after `README.`.  Any other files (`LICENSE`, sources, …) may be present. -/
theorem C9_readme_needs_char_after_dot (fs : FS)
    (hroot : fs.rootReadable = true)
    (_hexists : ∃ n ∈ childrenOf fs [], n.kind = .file ∧
      (toUpperL n.name.data = "README".data ∨ toUpperL n.name.data = "README.".data))
    (hnoother : ∀ n ∈ childrenOf fs [], n.kind = .file →
      toUpperL n.name.data = "README".data ∨ toUpperL n.name.data = "README.".data ∨
        startsL "README".data (toUpperL n.name.data) = false) :
    check_readme fs = .ok ⟨"readme", "README existe", 10, false, ""⟩ := by
  clear _hexists
  unfold check_readme
  rw [if_pos hroot]
  have hnone : (childrenOf fs []).find?
      (fun n => n.kind == .file && readmeMatch n.name) = none := by
    rw [List.find?_eq_none]
    intro n hn
    intro hcon
    rw [Bool.and_eq_true] at hcon
    obtain ⟨hk, hm⟩ := hcon
    have hkind : n.kind = .file := eq_of_beq hk
    have hfalse : readmeMatch n.name = false := by
      rcases hnoother n hn hkind with h | h | h
      · exact readmeMatch_eq_false n.name (by rw [h]; decide) (by rw [h]; decide)
      · exact readmeMatch_eq_false n.name (by rw [h]; decide) (by rw [h]; decide)
      · have hs : startsL "README.".data (toUpperL n.name.data) = false := by
          cases hb : startsL "README.".data (toUpperL n.name.data)
          · rfl
          · exfalso
            have hdec : ("README.".data : List Char) = "README".data ++ ['.'] := by decide
            rw [hdec] at hb
            have := startsL_of_append "README".data ['.'] (toUpperL n.name.data) hb
            rw [this] at h
            cases h
        refine readmeMatch_eq_false n.name ?_ (by rw [hs]; rfl)
        cases hb : (toUpperL n.name.data == "README.MD".data)
        · rfl
        · exfalso
          have he : toUpperL n.name.data = "README.MD".data := eq_of_beq hb
          rw [he] at h
          exact absurd h (by decide)
    rw [hfalse] at hm
    cases hm
  rw [hnone]

/-- Witness for C9: a repository whose top level holds a file named `README.`
beside an unrelated `LICENSE` file fails the readme check. -/
theorem C9_witness :
    fsReadmeDot.rootReadable = true ∧
      (∃ n ∈ childrenOf fsReadmeDot [], n.kind = .file ∧
        (toUpperL n.name.data = "README".data ∨
          toUpperL n.name.data = "README.".data)) ∧
      (∀ n ∈ childrenOf fsReadmeDot [], n.kind = .file →
        toUpperL n.name.data = "README".data ∨ toUpperL n.name.data = "README.".data ∨
          startsL "README".data (toUpperL n.name.data) = false) ∧
      check_readme fsReadmeDot = .ok ⟨"readme", "README existe", 10, false, ""⟩ :=
  ⟨by decide, by decide, by decide,
    C9_readme_needs_char_after_dot fsReadmeDot (by decide) (by decide) (by decide)⟩

/-- C10.  The ci check does not require the matching workflows entry to be a
regular file: on a repository whose `.github/workflows` contains only a
subdirectory named `deploy.yml` (and with no `.gitlab-ci.yml`), the check
passes with that entry as evidence. -/
theorem C10_ci_accepts_directory_entry :
    isDirAt fsDirWorkflow [".github", "workflows", "deploy.yml"] = true ∧
      isFileAt fsDirWorkflow [".gitlab-ci.yml"] = false ∧
      check_ci fsDirWorkflow =
        .ok ⟨"ci", "CI configurado", 15, true, ".github/workflows/deploy.yml"⟩ :=
  ⟨by decide, by decide, by decide⟩

end RepoScorecard
